import Mathlib

/-!
Shallow embedding of the OTP distribution coordinator of `src/main.py`
(repository `add_driver_rpa`).

The coordinator's shared state consists of
  * `otp_waiting_threads` — an ordered list of thread (worker) ids
    waiting for a one-time passcode (the WaitList),
  * `otp_queue` — a FIFO queue of delivered codes (the CodeQueue),
  * `browser_threads` — a registry mapping thread ids to worker records,
  * `otp_storage` — a legacy single-slot mailbox with its timestamp,
  * `debug_port_counter` — the bounded debug-port allocator counter.

Each Python critical section (code executed under the relevant lock) is
embedded as one atomic transition on this state.  The successful-consume
path of `wait_for_otp_sync` (check under `otp_waiting_lock`, then
`otp_queue.get`, then self-removal) is modelled as a single atomic step:
between the guarded check and the pop only the head thread can pop (the
check requires being head, and a thread stays head until it removes
itself), and `deliver` only appends at the back, so no interleaving can
change the element the head pops.
-/

namespace AddDriverRpa

/-- The shared queue state of the coordinator: `waitList` embeds
`otp_waiting_threads` (`src/main.py` line 38), `codeQueue` embeds
`otp_queue` (line 33), front of the list = front of the queue. -/
structure QState where
  waitList : List Nat
  codeQueue : List String
  deriving Repr, DecidableEq

/-- The initial state: both globals start empty (`src/main.py` lines 33, 38). -/
def initQState : QState := ⟨[], []⟩

/-- Registration step, from `wait_for_otp_sync` lines 496-501 (identical to
`wait_for_otp_from_api` lines 384-389): under `otp_waiting_lock`, if the
thread id is not in the list it is appended at the tail, otherwise nothing
changes (the existing position is kept). -/
def registerStep (tid : Nat) (s : QState) : QState :=
  if tid ∈ s.waitList then s else { s with waitList := s.waitList ++ [tid] }

/-- Delivery step, from `send_otp` lines 4821-4824: under `otp_queue_lock`
the code is appended to the FIFO queue.  Always succeeds. -/
def deliverStep (c : String) (s : QState) : QState :=
  { s with codeQueue := s.codeQueue ++ [c] }

/-- The guard checked under `otp_waiting_lock` in `wait_for_otp_sync`
lines 513-515 (identically `wait_for_otp_from_api` lines 410-412):
`has_otp = otp_queue.qsize() > 0` and
`is_my_turn = len(otp_waiting_threads) > 0 and otp_waiting_threads[0] == thread_id`. -/
def pollCheck (tid : Nat) (s : QState) : Bool :=
  decide (0 < s.codeQueue.length) && decide (s.waitList.head? = some tid)

/-- The consume step, from `wait_for_otp_sync` lines 517-528: pop the front
code from the queue, then remove the thread id from the waiting list
(`list.remove` removes the first occurrence, guarded by a membership test —
exactly `List.erase`). -/
def takeStep (tid : Nat) (s : QState) : QState :=
  { waitList := s.waitList.erase tid, codeQueue := s.codeQueue.tail }

/-- The timeout path, from `wait_for_otp_sync` lines 536-542 (identically
`wait_for_otp_from_api` lines 452-458): remove the thread id from the
waiting list if still present, and return `None` — no code is consumed. -/
def timeoutFinish (tid : Nat) (s : QState) : Option String × QState :=
  (none, { s with waitList := s.waitList.erase tid })

/-- Events of the coordinator: a worker registering, the HTTP endpoint
delivering a code, a worker consuming a code (recording which code it got),
and a worker abandoning its wait on timeout. -/
inductive Event where
  | register (tid : Nat)
  | deliver (c : String)
  | take (tid : Nat) (c : String)
  | timeout (tid : Nat)
  deriving Repr, DecidableEq

/-- One atomic transition.  A `take tid c` transition is only possible when
the guard of lines 513-517 holds and `c` is the front of the queue. -/
def step (s : QState) : Event → Option QState
  | .register tid => some (registerStep tid s)
  | .deliver c => some (deliverStep c s)
  | .take tid c =>
      if pollCheck tid s ∧ s.codeQueue.head? = some c then some (takeStep tid s)
      else none
  | .timeout tid => some (timeoutFinish tid s).2

/-- Run a sequence of events from a state. -/
def run (s : QState) : List Event → Option QState
  | [] => some s
  | e :: tr =>
      match step s e with
      | some s' => run s' tr
      | none => none

/-- The thread ids of the `register` events of a trace, in order. -/
def regsOf (tr : List Event) : List Nat :=
  tr.filterMap fun e =>
    match e with
    | .register tid => some tid
    | _ => none

/-- The codes of the `deliver` events of a trace, in order. -/
def delsOf (tr : List Event) : List String :=
  tr.filterMap fun e =>
    match e with
    | .deliver c => some c
    | _ => none

/-- The (thread id, code) pairs of the `take` events of a trace, in order. -/
def takesOf (tr : List Event) : List (Nat × String) :=
  tr.filterMap fun e =>
    match e with
    | .take tid c => some (tid, c)
    | _ => none

/-- A trace with no `timeout` event. -/
def NoTimeout (tr : List Event) : Prop :=
  ∀ tid, Event.timeout tid ∉ tr

theorem run_append (s : QState) (t₁ t₂ : List Event) :
    run s (t₁ ++ t₂) = match run s t₁ with
      | some s' => run s' t₂
      | none => none := by
  induction t₁ generalizing s with
  | nil => rfl
  | cons e t ih =>
      simp only [List.cons_append, run]
      cases step s e with
      | none => rfl
      | some s' => exact ih s'

theorem regsOf_append (t₁ t₂ : List Event) :
    regsOf (t₁ ++ t₂) = regsOf t₁ ++ regsOf t₂ := by
  simp [regsOf, List.filterMap_append]

theorem delsOf_append (t₁ t₂ : List Event) :
    delsOf (t₁ ++ t₂) = delsOf t₁ ++ delsOf t₂ := by
  simp [delsOf, List.filterMap_append]

theorem takesOf_append (t₁ t₂ : List Event) :
    takesOf (t₁ ++ t₂) = takesOf t₁ ++ takesOf t₂ := by
  simp [takesOf, List.filterMap_append]

theorem run_concat {s0 s : QState} {tr : List Event} {e : Event} :
    run s0 (tr ++ [e]) = some s ↔
      ∃ s', run s0 tr = some s' ∧ step s' e = some s := by
  rw [run_append]
  cases h : run s0 tr with
  | none => simp
  | some s' =>
      simp only [run]
      cases hs : step s' e with
      | none => simp [hs]
      | some s'' => simp [run, hs]

/-- Invariant of every reachable state: the code queue holds exactly the
delivered codes not yet consumed, and the codes consumed so far are exactly
the first consumed-count delivered codes, in delivery order. -/
theorem codeQueue_inv :
    ∀ (tr : List Event) (s : QState), run initQState tr = some s →
      s.codeQueue = (delsOf tr).drop (takesOf tr).length ∧
      (takesOf tr).map Prod.snd = (delsOf tr).take (takesOf tr).length ∧
      (takesOf tr).length ≤ (delsOf tr).length := by
  intro tr
  induction tr using List.reverseRecOn with
  | nil =>
      intro s hs
      simp only [run, Option.some.injEq] at hs
      subst hs
      simp [initQState, delsOf, takesOf]
  | append_singleton tr e ih =>
      intro s hs
      obtain ⟨s', hrun, hstep⟩ := run_concat.mp hs
      obtain ⟨hq, hmap, hle⟩ := ih s' hrun
      cases e with
      | register tid =>
          simp only [step, Option.some.injEq] at hstep
          subst hstep
          have hd : delsOf (tr ++ [Event.register tid]) = delsOf tr := by
            simp [delsOf_append, delsOf]
          have ht : takesOf (tr ++ [Event.register tid]) = takesOf tr := by
            simp [takesOf_append, takesOf]
          rw [hd, ht]
          refine ⟨?_, hmap, hle⟩
          unfold registerStep
          split <;> simpa using hq
      | deliver c =>
          simp only [step, Option.some.injEq] at hstep
          subst hstep
          have hd : delsOf (tr ++ [Event.deliver c]) = delsOf tr ++ [c] := by
            simp [delsOf_append, delsOf]
          have ht : takesOf (tr ++ [Event.deliver c]) = takesOf tr := by
            simp [takesOf_append, takesOf]
          rw [hd, ht]
          refine ⟨?_, ?_, ?_⟩
          · simp only [deliverStep]
            rw [List.drop_append_of_le_length hle, hq]
          · rw [List.take_append_of_le_length hle, hmap]
          · simp only [List.length_append, List.length_singleton]
            omega
      | take tid c =>
          simp only [step] at hstep
          split at hstep
          · rename_i hguard
            obtain ⟨hpoll, hhead⟩ := hguard
            simp only [Option.some.injEq] at hstep
            subst hstep
            have hd : delsOf (tr ++ [Event.take tid c]) = delsOf tr := by
              simp [delsOf_append, delsOf]
            have ht : takesOf (tr ++ [Event.take tid c]) =
                takesOf tr ++ [(tid, c)] := by
              simp [takesOf_append, takesOf]
            rw [hd, ht]
            -- the popped code is the (k)-th delivered code
            have hget : (delsOf tr)[(takesOf tr).length]? = some c := by
              have := List.head?_drop (delsOf tr) (takesOf tr).length
              rw [← hq, hhead] at this
              exact this.symm
            have hlt : (takesOf tr).length < (delsOf tr).length :=
              (List.getElem?_eq_some_iff.mp hget).1
            refine ⟨?_, ?_, ?_⟩
            · simp only [takeStep, List.length_append, List.length_singleton]
              rw [hq, List.tail_drop]
            · simp only [List.map_append, List.map_cons, List.map_nil,
                List.length_append, List.length_singleton]
              rw [hmap, List.take_succ, hget]
              rfl
            · simp only [List.length_append, List.length_singleton]
              omega
          · exact absurd hstep (by simp)
      | timeout tid =>
          simp only [step, Option.some.injEq] at hstep
          subst hstep
          have hd : delsOf (tr ++ [Event.timeout tid]) = delsOf tr := by
            simp [delsOf_append, delsOf]
          have ht : takesOf (tr ++ [Event.timeout tid]) = takesOf tr := by
            simp [takesOf_append, takesOf]
          rw [hd, ht]
          exact ⟨hq, hmap, hle⟩

/-- Invariant of every reachable state: the wait list never holds a thread
id twice, and it is an order-preserving subsequence of the sequence of
registrations made so far. -/
theorem waitList_inv :
    ∀ (tr : List Event) (s : QState), run initQState tr = some s →
      s.waitList.Nodup ∧ List.Sublist s.waitList (regsOf tr) := by
  intro tr
  induction tr using List.reverseRecOn with
  | nil =>
      intro s hs
      simp only [run, Option.some.injEq] at hs
      subst hs
      simp [initQState, regsOf]
  | append_singleton tr e ih =>
      intro s hs
      obtain ⟨s', hrun, hstep⟩ := run_concat.mp hs
      obtain ⟨hnd, hsub⟩ := ih s' hrun
      cases e with
      | register tid =>
          simp only [step, Option.some.injEq] at hstep
          subst hstep
          have hr : regsOf (tr ++ [Event.register tid]) = regsOf tr ++ [tid] := by
            simp [regsOf_append, regsOf]
          rw [hr]
          unfold registerStep
          split
          · exact ⟨hnd, hsub.trans (List.sublist_append_left _ _)⟩
          · rename_i hmem
            constructor
            · rw [List.nodup_append]
              exact ⟨hnd, List.nodup_singleton tid,
                fun a ha hb => by simp at hb; subst hb; exact hmem ha⟩
            · exact hsub.append (List.Sublist.refl [tid])
      | deliver c =>
          simp only [step, Option.some.injEq] at hstep
          subst hstep
          have hr : regsOf (tr ++ [Event.deliver c]) = regsOf tr := by
            simp [regsOf_append, regsOf]
          rw [hr]
          exact ⟨hnd, hsub⟩
      | take tid c =>
          simp only [step] at hstep
          split at hstep
          · simp only [Option.some.injEq] at hstep
            subst hstep
            have hr : regsOf (tr ++ [Event.take tid c]) = regsOf tr := by
              simp [regsOf_append, regsOf]
            rw [hr]
            exact ⟨hnd.erase tid, (List.erase_sublist tid s'.waitList).trans hsub⟩
          · exact absurd hstep (by simp)
      | timeout tid =>
          simp only [step, Option.some.injEq] at hstep
          subst hstep
          have hr : regsOf (tr ++ [Event.timeout tid]) = regsOf tr := by
            simp [regsOf_append, regsOf]
          rw [hr]
          exact ⟨hnd.erase tid, (List.erase_sublist tid s'.waitList).trans hsub⟩

/-- FIFO invariant: along any trace in which no two `register` events share
a thread id and no wait times out, the wait list is exactly the sequence of
registered-but-not-yet-served thread ids in registration order, and the
consume events so far pair the first k registered workers with the first k
delivered codes, in order. -/
theorem fifo_inv :
    ∀ (tr : List Event) (s : QState), run initQState tr = some s →
      (regsOf tr).Nodup → NoTimeout tr →
      s.waitList = (regsOf tr).drop (takesOf tr).length ∧
      takesOf tr = List.zip ((regsOf tr).take (takesOf tr).length)
        ((delsOf tr).take (takesOf tr).length) ∧
      (takesOf tr).length ≤ (regsOf tr).length := by
  intro tr
  induction tr using List.reverseRecOn with
  | nil =>
      intro s hs _ _
      simp only [run, Option.some.injEq] at hs
      subst hs
      simp [initQState, regsOf, delsOf, takesOf]
  | append_singleton tr e ih =>
      intro s hs hnd hnt
      obtain ⟨s', hrun, hstep⟩ := run_concat.mp hs
      have hnd' : (regsOf tr).Nodup := by
        have : List.Sublist (regsOf tr) (regsOf (tr ++ [e])) := by
          rw [regsOf_append]; exact List.sublist_append_left _ _
        exact this.nodup hnd
      have hnt' : NoTimeout tr := fun tid hmem =>
        hnt tid (List.mem_append_left _ hmem)
      obtain ⟨hw, hzip, hk⟩ := ih s' hrun hnd' hnt'
      obtain ⟨-, -, hkd⟩ := codeQueue_inv tr s' hrun
      cases e with
      | register tid =>
          simp only [step, Option.some.injEq] at hstep
          subst hstep
          have hr : regsOf (tr ++ [Event.register tid]) = regsOf tr ++ [tid] := by
            simp [regsOf_append, regsOf]
          have hd : delsOf (tr ++ [Event.register tid]) = delsOf tr := by
            simp [delsOf_append, delsOf]
          have ht : takesOf (tr ++ [Event.register tid]) = takesOf tr := by
            simp [takesOf_append, takesOf]
          rw [hr, hd, ht]
          have hfresh : tid ∉ regsOf tr := by
            rw [hr] at hnd
            rcases List.nodup_append.mp hnd with ⟨-, -, hdisj⟩
            exact fun hmem => hdisj hmem (List.mem_singleton_self tid)
          have hnotin : tid ∉ s'.waitList := fun hmem =>
            hfresh (List.mem_of_mem_drop (hw ▸ hmem))
          refine ⟨?_, ?_, ?_⟩
          · rw [registerStep, if_neg hnotin, hw,
              List.drop_append_of_le_length hk]
          · rw [List.take_append_of_le_length hk]; exact hzip
          · simp only [List.length_append, List.length_singleton]; omega
      | deliver c =>
          simp only [step, Option.some.injEq] at hstep
          subst hstep
          have hr : regsOf (tr ++ [Event.deliver c]) = regsOf tr := by
            simp [regsOf_append, regsOf]
          have hd : delsOf (tr ++ [Event.deliver c]) = delsOf tr ++ [c] := by
            simp [delsOf_append, delsOf]
          have ht : takesOf (tr ++ [Event.deliver c]) = takesOf tr := by
            simp [takesOf_append, takesOf]
          rw [hr, hd, ht]
          refine ⟨hw, ?_, hk⟩
          rw [List.take_append_of_le_length hkd]
          exact hzip
      | take tid c =>
          simp only [step] at hstep
          split at hstep
          · rename_i hguard
            obtain ⟨hpoll, hhead⟩ := hguard
            simp only [Option.some.injEq] at hstep
            subst hstep
            have hr : regsOf (tr ++ [Event.take tid c]) = regsOf tr := by
              simp [regsOf_append, regsOf]
            have hd : delsOf (tr ++ [Event.take tid c]) = delsOf tr := by
              simp [delsOf_append, delsOf]
            have ht : takesOf (tr ++ [Event.take tid c]) =
                takesOf tr ++ [(tid, c)] := by
              simp [takesOf_append, takesOf]
            rw [hr, hd, ht]
            have hwhead : s'.waitList.head? = some tid := by
              simp only [pollCheck, Bool.and_eq_true, decide_eq_true_eq] at hpoll
              exact hpoll.2
            have hrget : (regsOf tr)[(takesOf tr).length]? = some tid := by
              have := List.head?_drop (regsOf tr) (takesOf tr).length
              rw [← hw, hwhead] at this
              exact this.symm
            have hqq : s'.codeQueue = (delsOf tr).drop (takesOf tr).length :=
              (codeQueue_inv tr s' hrun).1
            have hdget : (delsOf tr)[(takesOf tr).length]? = some c := by
              have := List.head?_drop (delsOf tr) (takesOf tr).length
              rw [← hqq, hhead] at this
              exact this.symm
            have hrlt : (takesOf tr).length < (regsOf tr).length :=
              (List.getElem?_eq_some_iff.mp hrget).1
            have hdlt : (takesOf tr).length < (delsOf tr).length :=
              (List.getElem?_eq_some_iff.mp hdget).1
            refine ⟨?_, ?_, ?_⟩
            · simp only [takeStep, List.length_append, List.length_singleton]
              rw [hw, List.drop_eq_getElem_cons hrlt]
              have htid : (regsOf tr)[(takesOf tr).length] = tid :=
                ((List.getElem?_eq_some_iff.mp hrget).2)
              rw [htid, List.erase_cons_head]
            · simp only [List.length_append, List.length_singleton]
              rw [List.take_succ, List.take_succ, hrget, hdget]
              have hlen : ((regsOf tr).take (takesOf tr).length).length =
                  ((delsOf tr).take (takesOf tr).length).length := by
                simp [List.length_take]
                omega
              rw [List.zip_append hlen, ← hzip]
              rfl
            · simp only [List.length_append, List.length_singleton]
              omega
          · exact absurd hstep (by simp)
      | timeout tid =>
          exact absurd (List.mem_append_right tr (List.mem_singleton_self _))
            (hnt tid)

theorem sublist_head_indexOf_lt :
    ∀ {l₁ l₂ : List Nat}, List.Sublist l₁ l₂ → l₂.Nodup →
    ∀ x rest y, l₁ = x :: rest → y ∈ rest →
      l₂.indexOf x < l₂.indexOf y := by
  intro l₁ l₂ hsub
  induction hsub with
  | slnil => intro _ x rest y hx; cases hx
  | cons a htail ih =>
      intro hnd x rest y hx hy
      subst hx
      rename_i t
      have hndt : t.Nodup := (List.nodup_cons.mp hnd).2
      have hanot : a ∉ t := (List.nodup_cons.mp hnd).1
      have hxt : x ∈ t := htail.subset (List.mem_cons_self x rest)
      have hyt : y ∈ t := htail.subset (List.mem_cons_of_mem x hy)
      have hax : a ≠ x := fun h => hanot (by rw [h]; exact hxt)
      have hay : a ≠ y := fun h => hanot (by rw [h]; exact hyt)
      rw [List.indexOf_cons_ne t hax, List.indexOf_cons_ne t hay]
      exact Nat.succ_lt_succ (ih hndt x rest y rfl hy)
  | cons₂ a htail ih =>
      intro hnd x rest y hx hy
      injection hx with hxa hrest
      subst hrest
      rename_i t
      have hanot : a ∉ t := (List.nodup_cons.mp hnd).1
      have hyt : y ∈ t := htail.subset hy
      have hay : a ≠ y := fun h => hanot (by rw [h]; exact hyt)
      rw [← hxa, List.indexOf_cons_self, List.indexOf_cons_ne t hay]
      exact Nat.succ_pos _

/-- Claim C1 (FIFO fairness): along any trace from the empty state in which
each worker registers at most once and no wait times out, the i-th consume
event pairs the i-th registered worker with the i-th delivered code:
registration order alone determines which code each worker receives,
whatever the interleaving of deliveries with registrations. -/
theorem fifo_fairness (tr : List Event) (s : QState)
    (hrun : run initQState tr = some s)
    (hnd : (regsOf tr).Nodup) (hnt : NoTimeout tr)
    (i : Nat) (w : Nat) (c : String)
    (htake : (takesOf tr)[i]? = some (w, c)) :
    (regsOf tr)[i]? = some w ∧ (delsOf tr)[i]? = some c := by
  obtain ⟨-, hzip, -⟩ := fifo_inv tr s hrun hnd hnt
  rw [hzip] at htake
  obtain ⟨hr, hd⟩ := List.getElem?_zip_eq_some.mp htake
  have hik : i < (takesOf tr).length := by
    have := (List.getElem?_eq_some_iff.mp hr).1
    simp only [List.length_take] at this
    omega
  rw [List.getElem?_take_of_lt hik] at hr
  rw [List.getElem?_take_of_lt hik] at hd
  exact ⟨hr, hd⟩

/-- Claim C2 (at-most-once delivery): in every reachable state, the i-th
consume event pops exactly the queue entry at delivery position i — the
codes consumed so far are precisely the first k delivered entries in
order.  Hence two distinct consume events always pop entries at distinct
delivery positions, so no queue entry is ever returned by two `acquire`
calls. -/
theorem at_most_once (tr : List Event) (s : QState)
    (hrun : run initQState tr = some s) :
    (takesOf tr).map Prod.snd = (delsOf tr).take (takesOf tr).length ∧
    (∀ (i w : Nat) (c : String),
      (takesOf tr)[i]? = some (w, c) → (delsOf tr)[i]? = some c) := by
  obtain ⟨-, hmap, -⟩ := codeQueue_inv tr s hrun
  refine ⟨hmap, fun i w c htake => ?_⟩
  have hik : i < (takesOf tr).length :=
    (List.getElem?_eq_some_iff.mp htake).1
  have hsnd : ((takesOf tr).map Prod.snd)[i]? = some c := by
    rw [List.getElem?_map, htake]
    rfl
  rw [hmap, List.getElem?_take_of_lt hik] at hsnd
  exact hsnd

/-- Claim C3 (no priority inversion): a consume transition for worker `w`
is possible only when `w` is the head of the wait list; consequently, in
any reachable state, if some still-waiting worker registered earlier than
`w`, then `w` cannot pop a code. -/
theorem no_priority_inversion (tr : List Event) (s : QState)
    (hrun : run initQState tr = some s)
    (hnd : (regsOf tr).Nodup) (w w' : Nat) (c : String)
    (hmem : w' ∈ s.waitList)
    (hbefore : (regsOf tr).indexOf w' < (regsOf tr).indexOf w) :
    step s (Event.take w c) = none ∧
    (∀ u d s', step s (Event.take u d) = some s' →
      s.waitList.head? = some u) := by
  constructor
  · simp only [step]
    rw [if_neg]
    rintro ⟨hpoll, -⟩
    simp only [pollCheck, Bool.and_eq_true, decide_eq_true_eq] at hpoll
    obtain ⟨-, hhead⟩ := hpoll
    obtain ⟨-, hsub⟩ := waitList_inv tr s hrun
    obtain ⟨rest, hrest⟩ : ∃ rest, s.waitList = w :: rest := by
      cases hlist : s.waitList with
      | nil => rw [hlist] at hhead; cases hhead
      | cons a t =>
          rw [hlist] at hhead
          simp only [List.head?_cons, Option.some.injEq] at hhead
          exact ⟨t, by simp [hlist, hhead]⟩
    rw [hrest] at hsub hmem
    have hne : w' ≠ w := fun h => by rw [h] at hbefore; omega
    have hw'rest : w' ∈ rest := by
      rcases List.mem_cons.mp hmem with h | h
      · exact absurd h hne
      · exact h
    have := sublist_head_indexOf_lt hsub hnd w rest w' rfl hw'rest
    omega
  · intro u d s' hstep
    simp only [step] at hstep
    split at hstep
    · rename_i hguard
      simp only [pollCheck, Bool.and_eq_true, decide_eq_true_eq] at hguard
      exact hguard.1.2
    · cases hstep

/-- Claim C4 (timeout handling): the timeout path returns `None` and
consumes no code; in any reachable state it removes the timing-out worker
from the wait list (reachable wait lists have no duplicates, so the single
occurrence is gone), leaves the code queue untouched, and afterwards the
worker that had registered next is head and can immediately consume an
available code. -/
theorem timeout_ok (tr : List Event) (s : QState)
    (hrun : run initQState tr = some s) (tid : Nat) :
    (timeoutFinish tid s).1 = none ∧
    tid ∉ (timeoutFinish tid s).2.waitList ∧
    (timeoutFinish tid s).2.codeQueue = s.codeQueue ∧
    (∀ w' rest c, s.waitList = tid :: w' :: rest → s.codeQueue.head? = some c →
      step (timeoutFinish tid s).2 (Event.take w' c) =
        some (takeStep w' (timeoutFinish tid s).2)) := by
  obtain ⟨hnd, -⟩ := waitList_inv tr s hrun
  refine ⟨rfl, hnd.not_mem_erase, rfl, ?_⟩
  intro w' rest c hlist hcode
  simp only [timeoutFinish, step]
  rw [if_pos]
  constructor
  · simp only [pollCheck, Bool.and_eq_true, decide_eq_true_eq]
    constructor
    · have : s.codeQueue ≠ [] := by
        intro h; rw [h] at hcode; cases hcode
      cases hq : s.codeQueue with
      | nil => exact absurd hq this
      | cons a t => simp
    · rw [hlist, List.erase_cons_head]
      rfl
  · exact hcode

/-- Claim C5 (idempotent re-registration): registering a worker id that is
already in the wait list changes nothing — no duplicate entry, no change
of position — and in every reachable state each worker id occurs at most
once in the wait list. -/
theorem idempotent_reregister (tr : List Event) (s : QState)
    (hrun : run initQState tr = some s) (tid : Nat)
    (hmem : tid ∈ s.waitList) :
    registerStep tid s = s ∧ s.waitList.Nodup := by
  exact ⟨by rw [registerStep, if_pos hmem], (waitList_inv tr s hrun).1⟩

/-- A concrete trace exercising the scenario of spec §8: workers 1 and 2
register in that order, codes are delivered interleaved, each worker pops
when it is head. -/
def trC1 : List Event :=
  [.register 1, .deliver "111111", .register 2, .take 1 "111111",
   .deliver "222222", .take 2 "222222"]

theorem fifo_fairness_witness :
    (regsOf trC1)[1]? = some 2 ∧ (delsOf trC1)[1]? = some "222222" :=
  fifo_fairness trC1 ⟨[], []⟩ (by decide) (by decide)
    (by intro tid h; simp [trC1] at h) 1 2 "222222" (by decide)

/-- A concrete trace for the at-most-once witness: one code delivered, one
worker registered, one consume. -/
def trC2 : List Event := [.deliver "654321", .register 5, .take 5 "654321"]

theorem at_most_once_witness : (delsOf trC2)[0]? = some "654321" :=
  (at_most_once trC2 ⟨[], []⟩ (by decide)).2 0 5 "654321" (by decide)

/-- A concrete trace for the priority-inversion witness: workers 1 then 2
register, a code arrives, worker 2 (registered later) cannot pop it. -/
def trC3 : List Event := [.register 1, .register 2, .deliver "999999"]

theorem no_priority_inversion_witness :
    step ⟨[1, 2], ["999999"]⟩ (Event.take 2 "999999") = none :=
  (no_priority_inversion trC3 ⟨[1, 2], ["999999"]⟩ (by decide) (by decide)
    2 1 "999999" (by decide) (by decide)).1

/-- A concrete trace for the timeout witness: workers 3 then 4 register and
a code is waiting; worker 3 times out, worker 4 can then pop. -/
def trC4 : List Event := [.register 3, .register 4, .deliver "424242"]

theorem timeout_ok_witness :
    (timeoutFinish 3 (QState.mk [3, 4] ["424242"])).1 = none ∧
    3 ∉ (timeoutFinish 3 (QState.mk [3, 4] ["424242"])).2.waitList ∧
    step (timeoutFinish 3 (QState.mk [3, 4] ["424242"])).2
        (Event.take 4 "424242") =
      some (takeStep 4 (timeoutFinish 3 (QState.mk [3, 4] ["424242"])).2) := by
  obtain ⟨h1, h2, -, h4⟩ :=
    timeout_ok trC4 (QState.mk [3, 4] ["424242"]) (by decide) 3
  exact ⟨h1, h2, h4 4 [] "424242" (by decide) (by decide)⟩

/-- A concrete trace for the idempotent-re-registration witness. -/
def trC5 : List Event := [.register 7]

theorem idempotent_reregister_witness :
    registerStep 7 (QState.mk [7] []) = QState.mk [7] [] ∧
    (QState.mk [7] []).waitList.Nodup :=
  idempotent_reregister trC5 (QState.mk [7] []) (by decide) 7 (by decide)

/-- A worker record of the `browser_threads` registry, created at
`src/main.py` lines 342-345 with a creation timestamp and status
`"initializing"`; later fields (`error`, `policy_no`, `action_type`) are
optional. -/
structure WorkerRecord where
  created_at : ℚ
  status : String
  error : Option String := none
  policy_no : String := ""
  action_type : String := ""
  deriving Repr, DecidableEq

/-- The `browser_threads` registry (line 46), a mapping from thread ids to
worker records, embedded as an association list (Python dict keys are
unique; `List.lookup` returns the first binding). -/
abbrev Registry := List (Nat × WorkerRecord)

/-- The status update of `wait_for_otp_sync` lines 503-506 (identically
`wait_for_otp_from_api` lines 392-394 and every other status write in the
file): under `browser_threads_lock`, if the thread id is a key of
`browser_threads`, overwrite that record's `status`; otherwise do nothing.
The embedding is a total function into `Registry` — the operation has no
failure outcome, matching the fact that the Python block can only raise on
a failed dict access, which the membership guard rules out. -/
def setStatus (reg : Registry) (tid : Nat) (st : String) : Registry :=
  if (reg.lookup tid).isSome then
    reg.map fun p => if p.1 = tid then (p.1, { p.2 with status := st }) else p
  else reg

theorem lookup_map_status (reg : Registry) (tid : Nat) (st : String) :
    (reg.map fun p =>
        if p.1 = tid then (p.1, { p.2 with status := st }) else p).lookup tid
      = (reg.lookup tid).map fun r => { r with status := st } := by
  induction reg with
  | nil => rfl
  | cons p t ih =>
      obtain ⟨k, r⟩ := p
      simp only [List.map_cons]
      by_cases hk : k = tid
      · subst hk
        rw [if_pos rfl]
        simp [ih]
      · rw [if_neg hk]
        rw [List.lookup_cons, List.lookup_cons]
        have hbeq : (tid == k) = false :=
          beq_eq_false_iff_ne.mpr fun hc => hk hc.symm
        rw [hbeq]
        exact ih

theorem lookup_map_status_ne (reg : Registry) (tid tid' : Nat) (st : String)
    (h : tid' ≠ tid) :
    (reg.map fun p =>
        if p.1 = tid then (p.1, { p.2 with status := st }) else p).lookup tid'
      = reg.lookup tid' := by
  induction reg with
  | nil => rfl
  | cons p t ih =>
      obtain ⟨k, r⟩ := p
      simp only [List.map_cons]
      by_cases hk : k = tid
      · subst hk
        rw [if_pos rfl]
        rw [List.lookup_cons, List.lookup_cons]
        have hbeq : (tid' == k) = false := beq_eq_false_iff_ne.mpr h
        rw [hbeq, ih]
      · rw [if_neg hk]
        rw [List.lookup_cons, List.lookup_cons]
        cases hbeq : (tid' == k) with
        | true => rfl
        | false => rw [ih]

/-- Claim C9: the status update overwrites the record's status when the
thread id is registered (leaving every other binding untouched), is a
no-op when it is not, and — being a total function — never fails. -/
theorem setStatus_total (reg : Registry) (tid : Nat) (st : String) :
    (∀ r, reg.lookup tid = some r →
      (setStatus reg tid st).lookup tid = some { r with status := st } ∧
      ∀ tid', tid' ≠ tid →
        (setStatus reg tid st).lookup tid' = reg.lookup tid') ∧
    (reg.lookup tid = none → setStatus reg tid st = reg) := by
  constructor
  · intro r hr
    have hsome : (reg.lookup tid).isSome := by rw [hr]; rfl
    constructor
    · rw [setStatus, if_pos hsome, lookup_map_status, hr]
      rfl
    · intro tid' hne
      rw [setStatus, if_pos hsome, lookup_map_status_ne reg tid tid' st hne]
  · intro hnone
    rw [setStatus, if_neg (by rw [hnone]; simp)]

theorem setStatus_total_witness :
    ((setStatus [(1, ⟨0, "initializing", none, "", ""⟩)] 1
        "waiting_for_otp").lookup 1
      = some ⟨0, "waiting_for_otp", none, "", ""⟩) ∧
    setStatus [(1, ⟨0, "initializing", none, "", ""⟩)] 2 "waiting_for_otp"
      = [(1, ⟨0, "initializing", none, "", ""⟩)] := by
  constructor
  · exact ((setStatus_total [(1, ⟨0, "initializing", none, "", ""⟩)] 1
      "waiting_for_otp").1 ⟨0, "initializing", none, "", ""⟩ (by rfl)).1
  · exact (setStatus_total [(1, ⟨0, "initializing", none, "", ""⟩)] 2
      "waiting_for_otp").2 (by rfl)

/-!
The two call shapes of `acquire`.  Wall-clock time is abstracted into a
`fuel` count of polling iterations, and everything the rest of the system
does between two polls of this worker (deliveries by `send_otp`, pops and
removals by other workers) is abstracted into an environment function
`ext` applied to the shared state at the start of each iteration.  What is
not representable in this discrete model is exactly wall-clock timing:
`wait_for_otp_sync` sleeps with `time.sleep(0.1)` and polls the queue with
a fixed `0.3`-second block, while `wait_for_otp_from_api` suspends with
`await asyncio.sleep(0.1)`, polls via `asyncio.to_thread` with a
`min(0.3, remaining_timeout)` block, and re-derives `remaining_timeout`
from `time.time()` — all of which only decide how many iterations fit in
the timeout, i.e. the value of `fuel`.
-/

/-- The polling loop of `wait_for_otp_sync`, lines 511-542: each iteration
first sees the effect of concurrent events (`ext`), then checks the guard
of lines 513-515 under the lock; on success it pops the front code and
removes itself (lines 517-528, with the dead `queue.Empty` arm of line 529
modelled by the impossible empty-queue branch); otherwise it sleeps and
retries; when the deadline has passed it runs the timeout path of lines
536-542. -/
def syncLoop (tid : Nat) (ext : Nat → QState → QState) :
    Nat → Nat → QState → Option String × QState
  | 0, _, s => timeoutFinish tid s
  | fuel + 1, i, s =>
      let s' := ext i s
      if pollCheck tid s' then
        match s'.codeQueue with
        | c :: rest => (some c, ⟨s'.waitList.erase tid, rest⟩)
        | [] => syncLoop tid ext fuel (i + 1) s'
      else syncLoop tid ext fuel (i + 1) s'

/-- The polling loop of the `thread_id` branch of `wait_for_otp_from_api`,
lines 398-458: iterations guarded by `remaining_timeout > 0` (fuel), the
same locked guard check of lines 410-412, the pop-and-self-remove of lines
414-426 on success (the `queue.Empty` handler of lines 436-442 is the
impossible empty-queue branch), the cooperative sleep-and-recheck of lines
427-434 otherwise, and the timeout path of lines 452-458 when fuel runs
out. -/
def asyncLoop (tid : Nat) (ext : Nat → QState → QState) :
    Nat → Nat → QState → Option String × QState
  | 0, _, s => timeoutFinish tid s
  | fuel + 1, i, s =>
      let s' := ext i s
      if pollCheck tid s' then
        match s'.codeQueue with
        | c :: rest => (some c, ⟨s'.waitList.erase tid, rest⟩)
        | [] => asyncLoop tid ext fuel (i + 1) s'
      else asyncLoop tid ext fuel (i + 1) s'

/-- `wait_for_otp_sync` (lines 483-542): register, update the worker's
status, then poll. -/
def wait_for_otp_sync (fuel tid : Nat) (ext : Nat → QState → QState)
    (s : QState) (reg : Registry) : (Option String × QState) × Registry :=
  (syncLoop tid ext fuel 0 (registerStep tid s),
   setStatus reg tid "waiting_for_otp")

/-- The `thread_id` branch of `wait_for_otp_from_api` (lines 381-458):
register, update the worker's status, then poll cooperatively. -/
def wait_for_otp_from_api (fuel tid : Nat) (ext : Nat → QState → QState)
    (s : QState) (reg : Registry) : (Option String × QState) × Registry :=
  (asyncLoop tid ext fuel 0 (registerStep tid s),
   setStatus reg tid "waiting_for_otp")

/-- The successful pop inside the polling loop is exactly the `take`
transition of the event-level model: the loop's state change on a hit is
the state produced by `step` on a `take` event for the popped code. -/
theorem syncLoop_pop_is_take (tid : Nat) (s : QState) (c : String)
    (rest : List String) (hpoll : pollCheck tid s = true)
    (hq : s.codeQueue = c :: rest) :
    step s (Event.take tid c) = some ⟨s.waitList.erase tid, rest⟩ := by
  rw [step, if_pos ⟨hpoll, by rw [hq]; rfl⟩]
  rw [takeStep, hq]
  rfl

theorem syncLoop_eq_asyncLoop (tid : Nat) (ext : Nat → QState → QState) :
    ∀ (fuel i : Nat) (s : QState),
      syncLoop tid ext fuel i s = asyncLoop tid ext fuel i s := by
  intro fuel
  induction fuel with
  | zero => intro i s; rfl
  | succ n ih =>
      intro i s
      simp only [syncLoop, asyncLoop]
      split
      · split
        · rfl
        · exact ih (i + 1) (ext i s)
      · exact ih (i + 1) (ext i s)

/-- Claim C6: run against the same shared wait list, code queue and
registry, with the same worker id, the same iteration budget and the same
concurrent environment, the blocking-host call shape
(`wait_for_otp_sync`) and the non-blocking-host call shape (the
`thread_id` branch of `wait_for_otp_from_api`) return the same code (or
the same timeout indication) and leave the shared state identical — their
discrete behaviours coincide, so they obey the same ordering and
at-most-once guarantees; they differ only in how the inter-poll pause is
realised, which this model abstracts into `fuel`. -/
theorem sync_async_equivalent (fuel tid : Nat) (ext : Nat → QState → QState)
    (s : QState) (reg : Registry) :
    wait_for_otp_sync fuel tid ext s reg
      = wait_for_otp_from_api fuel tid ext s reg := by
  unfold wait_for_otp_sync wait_for_otp_from_api
  rw [syncLoop_eq_asyncLoop]

/-- The legacy single-slot mailbox `otp_storage` (line 54).  Python
initialises both fields to `None`; `timestamp` is only ever read after
`otp` has been checked to be non-`None`, and every write (`send_otp` lines
4833-4835) sets both fields, so embedding `timestamp` as a plain rational
(0 when no value has ever been stored) is observationally faithful.
Timestamps and the current time are rationals standing for `time.time()`
values. -/
structure OtpStorage where
  otp : Option String
  timestamp : ℚ
  deriving Repr, DecidableEq

/-- `send_otp`'s legacy write, lines 4833-4835: unconditionally overwrite
the slot with the code and the current time. -/
def otpPut (code : String) (now : ℚ) : OtpStorage :=
  { otp := some code, timestamp := now }

/-- One read of the legacy slot: a single iteration of the
`thread_id = None` branch of `wait_for_otp_from_api`, lines 463-477.  If a
value is present and younger than 300 seconds, clear the slot and return
the value; if present but at least 300 seconds old, clear the slot and
return nothing (line 474 clears only `otp`, leaving the timestamp); if
absent, return nothing and change nothing. -/
def legacyTakeOnce (s : OtpStorage) (now : ℚ) : Option String × OtpStorage :=
  match s.otp with
  | some code =>
      if now - s.timestamp < 300 then (some code, { s with otp := none })
      else (none, { s with otp := none })
  | none => (none, s)

/-- Claim C7: a single legacy-slot read returns the stored value and
clears the slot when the value is strictly younger than the 300-second
window, clears and returns nothing when the value is at least 300 seconds
old, returns nothing when the slot is empty; in particular a read at
`timestamp + 300 + ε` after a `put` returns nothing and clears the slot. -/
theorem legacy_take_spec (s : OtpStorage) (now : ℚ) :
    (∀ code, s.otp = some code → now - s.timestamp < 300 →
      legacyTakeOnce s now = (some code, { s with otp := none })) ∧
    (s.otp.isSome → 300 ≤ now - s.timestamp →
      legacyTakeOnce s now = (none, { s with otp := none })) ∧
    (s.otp = none → legacyTakeOnce s now = (none, s)) ∧
    (∀ (code : String) (ts ε : ℚ), 0 < ε →
      legacyTakeOnce (otpPut code ts) (ts + 300 + ε)
        = (none, { otpPut code ts with otp := none })) := by
  refine ⟨?_, ?_, ?_, ?_⟩
  · intro code hc hfresh
    rw [legacyTakeOnce, hc]
    simp only [if_pos hfresh]
  · intro hsome hexp
    match hc : s.otp with
    | none => rw [hc] at hsome; cases hsome
    | some code =>
        rw [legacyTakeOnce, hc]
        simp only [if_neg (not_lt.mpr hexp)]
  · intro hc
    rw [legacyTakeOnce, hc]
  · intro code ts ε hε
    rw [legacyTakeOnce]
    simp only [otpPut]
    rw [if_neg (by push_neg; linarith)]

theorem legacy_take_spec_witness :
    legacyTakeOnce (otpPut "123456" 10) (10 + 300 + 1)
      = (none, { otpPut "123456" 10 with otp := none }) :=
  (legacy_take_spec (otpPut "123456" 10) (10 + 300 + 1)).2.2.2
    "123456" 10 1 (by norm_num)

/-- The response of the `GET /otp/status` handler: `age_seconds` and
`expires_in` are only present when a value is waiting. -/
structure OtpStatusResp where
  waiting : Bool
  age_seconds : Option Int
  expires_in : Option Int
  deriving Repr, DecidableEq

/-- Python's `int()` on a float/rational truncates toward zero. -/
def pyInt (q : ℚ) : Int := if q < 0 then ⌈q⌉ else ⌊q⌋

/-- The `GET /otp/status` handler, `src/main.py` lines 4863-4885: if a
value is in the legacy slot, report `waiting: True` with its age and
`int(300 - age) if age < 300 else 0` — with no freshness check and no
write to `otp_storage` (the state is returned unchanged); otherwise report
`waiting: False`. -/
def otp_status (s : OtpStorage) (now : ℚ) : OtpStatusResp × OtpStorage :=
  match s.otp with
  | some _ =>
      let age := now - s.timestamp
      (⟨true, some (pyInt age),
        some (if age < 300 then pyInt (300 - age) else 0)⟩, s)
  | none => (⟨false, none, none⟩, s)

/-- Claim C10: when the legacy slot holds a value whose age is at least
the 300-second validity window, the status endpoint still reports
`waiting: True`, with `expires_in` equal to 0, and neither clears the slot
nor applies the expiry rule — the expired value keeps being reported as
waiting until a take clears it. -/
theorem legacy_status_ignores_expiry (s : OtpStorage) (now : ℚ)
    (hsome : s.otp.isSome) (hexp : 300 ≤ now - s.timestamp) :
    (otp_status s now).1.waiting = true ∧
    (otp_status s now).1.expires_in = some 0 ∧
    (otp_status s now).2 = s := by
  match hc : s.otp with
  | none => rw [hc] at hsome; cases hsome
  | some code =>
      rw [otp_status, hc]
      simp only [if_neg (not_lt.mpr hexp)]
      exact ⟨trivial, trivial, trivial⟩

theorem legacy_status_ignores_expiry_witness :
    (otp_status (otpPut "123456" 0) 300).1.waiting = true ∧
    (otp_status (otpPut "123456" 0) 300).1.expires_in = some 0 ∧
    (otp_status (otpPut "123456" 0) 300).2 = otpPut "123456" 0 :=
  legacy_status_ignores_expiry (otpPut "123456" 0) 300 (by rfl)
    (by norm_num [otpPut])

/-- `get_next_debug_port`, `src/main.py` lines 208-233: under
`debug_port_lock`, increment the counter, clamp it up to 9223 if below,
reset it to 9223 if above 9999, and return it.  The embedding returns the
assigned port together with the new counter value (the counter is a Python
int, so an unbounded integer). -/
def get_next_debug_port (counter : Int) : Int × Int :=
  let c := counter + 1
  let c := if c < 9223 then 9223 else c
  let c := if c > 9999 then 9223 else c
  (c, c)

/-- Initial value of `debug_port_counter` (line 50). -/
def debugPortInit : Int := 9222

/-- The counter after n calls to `get_next_debug_port`. -/
def portCounterAfter : Nat → Int
  | 0 => debugPortInit
  | n + 1 => (get_next_debug_port (portCounterAfter n)).2

/-- The port returned by call number n (0-indexed: `portCall 0` is the
first call). -/
def portCall (n : Nat) : Int := (get_next_debug_port (portCounterAfter n)).1

theorem portCall_eq_counterAfter (n : Nat) :
    portCall n = portCounterAfter (n + 1) := rfl

theorem portCounterAfter_succ (n : Nat) :
    portCounterAfter (n + 1) = 9223 + ((n : Int) % 777) := by
  induction n with
  | zero => rfl
  | succ m ih =>
      show (get_next_debug_port (portCounterAfter (m + 1))).2 = _
      rw [ih]
      have h0 : 0 ≤ (m : Int) % 777 := Int.emod_nonneg _ (by norm_num)
      have h1 : (m : Int) % 777 < 777 := Int.emod_lt_of_pos _ (by norm_num)
      simp only [get_next_debug_port]
      split
      · omega
      · split <;> push_cast <;> omega

/-- Claim C8: every call of `get_next_debug_port` returns a port in
[9223, 9999]; the first call returns 9223; call n returns
`9223 + (n mod 777)` (0-indexed, i.e. the n-th call 1-indexed returns
`9223 + ((n - 1) mod 777)`); each call returns the successor of the
previous call's value except that 9999 wraps back to 9223; and any two
distinct calls among the first 777 return distinct ports. -/
theorem port_allocator_spec :
    portCall 0 = 9223 ∧
    (∀ n : Nat, portCall n = 9223 + ((n : Int) % 777)) ∧
    (∀ n : Nat, 9223 ≤ portCall n ∧ portCall n ≤ 9999) ∧
    (∀ n : Nat, portCall (n + 1)
      = if portCall n = 9999 then 9223 else portCall n + 1) ∧
    (∀ m n : Nat, m < n → n < 777 → portCall m ≠ portCall n) := by
  have hval : ∀ n : Nat, portCall n = 9223 + ((n : Int) % 777) := fun n =>
    (portCall_eq_counterAfter n).trans (portCounterAfter_succ n)
  have hmod : ∀ n : Nat, 0 ≤ (n : Int) % 777 ∧ (n : Int) % 777 < 777 :=
    fun n => ⟨Int.emod_nonneg _ (by norm_num), Int.emod_lt_of_pos _ (by norm_num)⟩
  refine ⟨by rfl, hval, ?_, ?_, ?_⟩
  · intro n
    obtain ⟨h0, h1⟩ := hmod n
    rw [hval n]
    omega
  · intro n
    obtain ⟨h0, h1⟩ := hmod n
    obtain ⟨h0', h1'⟩ := hmod (n + 1)
    rw [hval n, hval (n + 1)]
    push_cast
    split <;> omega
  · intro m n hmn hn hne
    rw [hval m, hval n] at hne
    have hm' : ((m : Int) % 777) = (m : Int) := Int.emod_eq_of_lt (by positivity) (by exact_mod_cast hn.trans_le' hmn.le)
    have hn' : ((n : Int) % 777) = (n : Int) := Int.emod_eq_of_lt (by positivity) (by exact_mod_cast hn)
    rw [hm', hn'] at hne
    omega

theorem port_allocator_spec_witness :
    portCall 0 = 9223 ∧ portCall 1 = 9224 ∧ portCall 777 = 9223 := by
  obtain ⟨h0, hval, -, -, -⟩ := port_allocator_spec
  exact ⟨h0, by rw [hval 1]; rfl, by rw [hval 777]; rfl⟩

end AddDriverRpa
